import Mathlib

/-!
Verification of the dna_ai sequence pipeline (src/dna_ai).

The development shallowly embeds the C++ sources:
  * `kmer_model.cpp` / `kmer_model.hpp` — the order-2 frequency model
    (`KmerModel`): `index`, `base_from_index`, `update`, `predict`,
    `save`, `load`.
  * `main.cpp` — `gc_content`, the imputation loop of `main`, and the
    retry loop of `fetch_sequence`.

Machine integers (`size_t`) are modelled as `Nat`: all counters only
increment, so no overflow behaviour is observable in the properties
below.  `double` division in `gc_content` is modelled as exact rational
division; every concrete value compared in the claims (0, 1/4, 1/2, 1)
is exactly representable as a `double`, so the comparisons are faithful.
The C++ sentinel returns (`-1` from `KmerModel::index`, the `'N'` base)
are modelled with `Option` where the sentinel is only used as a flag.
-/

set_option autoImplicit false

/-- The guard `base != 'A' && base != 'C' && base != 'G' && base != 'T'`
from the imputation loop in `main.cpp` (negated). -/
def isACGT (c : Char) : Bool :=
  c = 'A' || c = 'C' || c = 'G' || c = 'T'

/-- A 4-slot count vector, one slot per canonical base, indexed in the
order A, C, G, T (`std::array<size_t,4>` in `kmer_model.hpp`). -/
abbrev Counts := Fin 4 → Nat

/-- The value-initialised `std::array<size_t,4>` a fresh map entry gets. -/
def zeroCounts : Counts := fun _ => 0

/-- `KmerModel::table_ : std::unordered_map<std::string, std::array<size_t,4>>`,
modelled as an association list (first matching key wins, mirroring the
map's unique keys; iteration order of the hash map is unspecified, and no
property below depends on the order of entries). -/
abbrev KmerModel := List (String × Counts)

/-- `KmerModel::index`: A↦0, C↦1, G↦2, T↦3; the C++ sentinel `-1` for any
other character is modelled as `none`. -/
def KmerModel.index? (base : Char) : Option (Fin 4) :=
  if base = 'A' then some 0
  else if base = 'C' then some 1
  else if base = 'G' then some 2
  else if base = 'T' then some 3
  else none

/-- `KmerModel::base_from_index`: `"ACGT"[idx]` for 0 ≤ idx < 4, else `'N'`.
The in-range test `idx >= 0 && idx < 4` is carried by the `Option (Fin 4)`. -/
def KmerModel.base_from_index : Option (Fin 4) → Char
  | some ⟨0, _⟩ => 'A'
  | some ⟨1, _⟩ => 'C'
  | some ⟨2, _⟩ => 'G'
  | some ⟨3, _⟩ => 'T'
  | _ => 'N'

/-- `table_.find(ctx)`: the entry of `ctx`, if present. -/
def KmerModel.lookupCtx : KmerModel → String → Option Counts
  | [], _ => none
  | (c, arr) :: rest, ctx => if c = ctx then some arr else KmerModel.lookupCtx rest ctx

/-- `arr[i]++` on a count vector. -/
def KmerModel.bump (arr : Counts) (i : Fin 4) : Counts :=
  fun j => if j = i then arr j + 1 else arr j

/-- `table_[ctx][idx]++`: `operator[]` default-inserts a zeroed array when
`ctx` is absent, then the slot `idx` is incremented. -/
def KmerModel.bumpEntry : KmerModel → String → Fin 4 → KmerModel
  | [], ctx, i => [(ctx, KmerModel.bump zeroCounts i)]
  | (c, arr) :: rest, ctx, i =>
    if c = ctx then (c, KmerModel.bump arr i) :: rest
    else (c, arr) :: KmerModel.bumpEntry rest ctx i

/-- `KmerModel::update`: increment the count of `next` under `ctx`, a no-op
when `index(next) < 0`. -/
def KmerModel.update (m : KmerModel) (ctx : String) (next : Char) : KmerModel :=
  match KmerModel.index? next with
  | some i => KmerModel.bumpEntry m ctx i
  | none => m

/-- One iteration of the scan in `KmerModel::predict`:
`if (arr[i] > best) { best = arr[i]; idx = i; }`.  The state is the pair
`(best, idx)` with `idx = -1` modelled as `none`. -/
def KmerModel.scanStep (arr : Counts) (st : Nat × Option (Fin 4)) (i : Fin 4) :
    Nat × Option (Fin 4) :=
  if arr i > st.1 then (arr i, some i) else st

/-- The loop bounds `for (int i = 0; i < 4; ++i)`. -/
def fourIndices : List (Fin 4) := [0, 1, 2, 3]

/-- `KmerModel::predict`: `'N'` for an absent context, otherwise the scan
for the first strictly-greatest count, starting from `best = 0, idx = -1`. -/
def KmerModel.predict (m : KmerModel) (ctx : String) : Char :=
  match KmerModel.lookupCtx m ctx with
  | none => 'N'
  | some arr =>
    KmerModel.base_from_index (List.foldl (KmerModel.scanStep arr) (0, none) fourIndices).2

/-- The count stored for `(ctx, i)`, with an absent context read as all
zeros (the equivalence the map's `operator[]` default insertion realises). -/
def KmerModel.getCount (m : KmerModel) (ctx : String) (i : Fin 4) : Nat :=
  match KmerModel.lookupCtx m ctx with
  | none => 0
  | some arr => arr i

/-- `toupper(c) == 'G' || toupper(c) == 'C'` (numerator test of
`gc_content`; `std::toupper` in the C locale is ASCII upper-casing, which
is `Char.toUpper`). -/
def isGcChar (c : Char) : Bool :=
  c.toUpper = 'G' || c.toUpper = 'C'

/-- The denominator test of `gc_content`: `upper` is one of A, T, G, C, U. -/
def isNucChar (c : Char) : Bool :=
  c.toUpper = 'A' || c.toUpper = 'T' || c.toUpper = 'G' || c.toUpper = 'C' || c.toUpper = 'U'

/-- The body of the counting loop of `gc_content` over the running pair
`(gc, total)`. -/
def gcStep (p : Nat × Nat) (c : Char) : Nat × Nat :=
  let gc := if isGcChar c then p.1 + 1 else p.1
  let total := if isNucChar c then p.2 + 1 else p.2
  (gc, total)

/-- `gc_content` from `main.cpp` (double division modelled exactly on ℚ). -/
def gc_content (s : List Char) : ℚ :=
  let p := s.foldl gcStep (0, 0)
  if p.2 = 0 then 0 else (p.1 : ℚ) / (p.2 : ℚ)

/-- `std::string ctx{sequence[i-2], sequence[i-1]}`. -/
def ctxOf (p2 p1 : Char) : String := String.mk [p2, p1]

/-- The per-position correction of the imputation loop in `main.cpp`:
if the residue is not canonical, take the model's prediction unless it is
`'N'`; afterwards rewrite `'U'` to `'T'`. -/
def imputeBase (m : KmerModel) (ctx : String) (c : Char) : Char :=
  let b := if isACGT c then c else
    (let guess := KmerModel.predict m ctx
     if guess ≠ 'N' then guess else c)
  if b = 'U' then 'T' else b

/-- The imputation loop from index 2 on: `p2`/`p1` are the two already
corrected residues preceding the head.  Returns the corrected tail and
the updated model. -/
def imputeAux (m : KmerModel) (p2 p1 : Char) : List Char → List Char × KmerModel
  | [] => ([], m)
  | c :: rest =>
    let ctx := ctxOf p2 p1
    let b := imputeBase m ctx c
    let m1 := KmerModel.update m ctx b
    let r := imputeAux m1 p1 b rest
    (b :: r.1, r.2)

/-- The imputation pipeline of `main.cpp`: sequences of length < 2 pass
through with the model untouched (`if (sequence.size() >= 2)`); otherwise
the first two residues pass through and the loop runs from index 2. -/
def pipeline (m : KmerModel) (s : List Char) : List Char × KmerModel :=
  match s with
  | c0 :: c1 :: rest =>
    let r := imputeAux m c0 c1 rest
    (c0 :: c1 :: r.1, r.2)
  | other => (other, m)

/-- The model state after running the pipeline, starting from the empty
model (a fresh `KmerModel`, or equivalently `load` of an absent file),
over a list of input sequences in order. -/
def runAll (inputs : List (List Char)) : KmerModel :=
  inputs.foldl (fun m s => (pipeline m s).2) []

/-- One line of the model file, as `KmerModel::save` emits it:
`<ctx> ' ' <base> ' ' <count>`.  `save` writes a record exactly for the
slots with `arr[i] > 0`. -/
structure SaveRecord where
  ctx : String
  base : Char
  count : Nat
deriving DecidableEq, Repr

/-- The records the inner loop of `KmerModel::save` emits for one map
entry: slots `i = 0..3` in order, kept when `arr[i] > 0`. -/
def entryRecords (ctx : String) (arr : Counts) : List SaveRecord :=
  fourIndices.filterMap fun i =>
    if 0 < arr i then some ⟨ctx, KmerModel.base_from_index (some i), arr i⟩ else none

/-- All records `KmerModel::save` writes (entry iteration order is the
unordered map's; no property below depends on it). -/
def KmerModel.saveRecords (m : KmerModel) : List SaveRecord :=
  (m.map fun e => entryRecords e.1 e.2).flatten

/-- The character of a decimal digit value. -/
def digitChar (d : Nat) : Char := Char.ofNat (48 + d)

/-- Digit extraction for `natToDec`, least significant digit first into the
accumulator; the fuel (`n + 1` from `natToDec`) always suffices since a
numeral has at most `n + 1` digits. -/
def natToDecAux : Nat → Nat → List Char → List Char
  | 0, _, acc => acc
  | fuel + 1, n, acc =>
    if n < 10 then digitChar (n % 10) :: acc
    else natToDecAux fuel (n / 10) (digitChar (n % 10) :: acc)

/-- The decimal numeral `operator<<` prints for a `size_t`: most
significant digit first, no sign, `"0"` for zero. -/
def natToDec (n : Nat) : List Char :=
  natToDecAux (n + 1) n []

/-- The characters one record contributes to the model file:
`out << ctx << ' ' << base_from_index(i) << ' ' << arr[i] << '\n'`. -/
def recordChars (r : SaveRecord) : List Char :=
  r.ctx.data ++ ' ' :: r.base :: ' ' :: (natToDec r.count ++ ['\n'])

/-- The full character contents of the file `KmerModel::save` writes. -/
def KmerModel.saveChars (m : KmerModel) : List Char :=
  ((KmerModel.saveRecords m).map recordChars).flatten

/-- `std::isspace` in the C locale: space and the characters 9–13. -/
def isStreamWs (c : Char) : Bool :=
  c = ' ' || (9 ≤ c.toNat && c.toNat ≤ 13)

/-- Leading-whitespace skipping performed by every `operator>>`. -/
def skipWs : List Char → List Char
  | [] => []
  | c :: rest => if isStreamWs c then skipWs rest else c :: rest

/-- The maximal whitespace-free run at the head of a stream, with the
rest of the stream. -/
def takeTok : List Char → List Char × List Char
  | [] => ([], [])
  | c :: rest =>
    if isStreamWs c then ([], c :: rest)
    else (let r := takeTok rest; (c :: r.1, r.2))

/-- `in >> ctx` for a `std::string`: skip whitespace, read a non-empty
token; failure (end of stream) is `none`. -/
def readToken (s : List Char) : Option (String × List Char) :=
  let r := takeTok (skipWs s)
  if r.1 = [] then none else some (String.mk r.1, r.2)

/-- `in >> base` for a `char`: skip whitespace, read exactly one
character. -/
def readChar (s : List Char) : Option (Char × List Char) :=
  match skipWs s with
  | [] => none
  | c :: rest => some (c, rest)

/-- The numeric value of a decimal digit character. -/
def digitVal? (c : Char) : Option Nat :=
  if '0' ≤ c ∧ c ≤ '9' then some (c.toNat - 48) else none

/-- The maximal run of decimal digits at the head of a stream. -/
def takeDigits : List Char → List Nat × List Char
  | [] => ([], [])
  | c :: rest =>
    match digitVal? c with
    | some d => (let r := takeDigits rest; (d :: r.1, r.2))
    | none => ([], c :: rest)

/-- `in >> count` for a `size_t`: skip whitespace and parse a decimal
numeral, failing when no digit follows.  (This covers exactly the
numerals `save` emits; `operator>>` additionally accepts a sign, which
never occurs in a saved file.) -/
def readNat (s : List Char) : Option (Nat × List Char) :=
  let r := takeDigits (skipWs s)
  if r.1 = [] then none
  else some (r.1.foldl (fun a d => a * 10 + d) 0, r.2)

/-- One evaluation of the loop condition `in >> ctx >> base >> count` of
`KmerModel::load`: all three extractions must succeed for the body to
run. -/
def readRecord (s : List Char) : Option ((String × Char × Nat) × List Char) :=
  match readToken s with
  | none => none
  | some (ctx, s1) =>
    match readChar s1 with
    | none => none
    | some (b, s2) =>
      match readNat s2 with
      | none => none
      | some (n, s3) => some ((ctx, b, n), s3)

/-- `arr[i] = n` on a count vector. -/
def setCount (arr : Counts) (i : Fin 4) (n : Nat) : Counts :=
  fun j => if j = i then n else arr j

/-- `table_[ctx][idx] = count`: `operator[]` default-inserts a zeroed
array when `ctx` is absent, then the slot is assigned. -/
def setEntry : KmerModel → String → Fin 4 → Nat → KmerModel
  | [], ctx, i, n => [(ctx, setCount zeroCounts i n)]
  | (c, arr) :: rest, ctx, i, n =>
    if c = ctx then (c, setCount arr i n) :: rest
    else (c, arr) :: setEntry rest ctx i n

/-- The body of the `KmerModel::load` loop: the record is applied only
when `index(base) >= 0`. -/
def applyRecord (m : KmerModel) (ctx : String) (b : Char) (n : Nat) : KmerModel :=
  match KmerModel.index? b with
  | some i => setEntry m ctx i n
  | none => m

/-- The `while (in >> ctx >> base >> count)` loop of `KmerModel::load`,
with explicit fuel: every successful `readRecord` consumes at least one
character, so `s.length + 1` steps always suffice (`loadChars` passes
exactly that). -/
def loadLoop : Nat → KmerModel → List Char → KmerModel
  | 0, m, _ => m
  | fuel + 1, m, s =>
    match readRecord s with
    | none => m
    | some ((ctx, b, n), s1) => loadLoop fuel (applyRecord m ctx b n) s1

/-- `KmerModel::load` on a fresh model, reading the given file
contents. -/
def loadChars (s : List Char) : KmerModel :=
  loadLoop (s.length + 1) [] s

/-- One remote attempt of `fetch_sequence`, as observed by the program:
the bytes the transfer appended to the shared `buffer` through
`WriteCallback`, whether `curl_easy_perform` returned `CURLE_OK`, and
the HTTP response code of the transfer. -/
structure Attempt where
  written : String
  ok : Bool
  status : Nat
deriving DecidableEq, Repr

/-- State left by the retry loop of `fetch_sequence`: the accumulated
buffer, the final `res == CURLE_OK`, the response code of the last
transfer performed, how many attempts ran, and the back-off sleeps (ms)
taken, in order. -/
structure LoopOut where
  buf : String
  ok : Bool
  status : Nat
  attempts : Nat
  sleeps : List Nat
deriving DecidableEq, Repr

/-- What `fetch_sequence` produces for a remote accession: the returned
buffer, or the message of the thrown `std::runtime_error`; plus the
attempt count and sleeps for the retry-schedule properties. -/
structure FetchResult where
  result : Except String String
  attempts : Nat
  sleeps : List Nat
deriving Repr

/-- The retry loop `for (int attempt = 0; attempt < 3; ++attempt)`:
`n` attempts remain, `i` is the current attempt index.  The buffer is
NOT cleared between attempts (the `WriteCallback` appends to the same
`std::string`), and a failed attempt sleeps `100 * 2^attempt` ms, the
last one included. -/
def runAttempts (att : Nat → Attempt) : Nat → Nat → String → List Nat → LoopOut
  | 0, i, buf, sleeps => ⟨buf, false, 0, i, sleeps⟩
  | n + 1, i, buf, sleeps =>
    let a := att i
    let buf1 := buf ++ a.written
    if a.ok then ⟨buf1, true, a.status, i + 1, sleeps⟩
    else runAttempts att n (i + 1) buf1 (sleeps ++ [100 * 2 ^ i])

/-- The remote branch of `fetch_sequence`: run up to 3 attempts; if the
last `res` is not `CURLE_OK`, throw the network error; otherwise check
the response code of the last transfer against 200; otherwise return the
buffer. -/
def fetchRemote (att : Nat → Attempt) : FetchResult :=
  let o := runAttempts att 3 0 "" []
  if o.ok = false then ⟨Except.error "Network error while fetching sequence", o.attempts, o.sleeps⟩
  else if o.status ≠ 200 then
    ⟨Except.error ("HTTP response code: " ++ toString o.status), o.attempts, o.sleeps⟩
  else ⟨Except.ok o.buf, o.attempts, o.sleeps⟩

/-- Attempt oracle that fails twice writing nothing, then succeeds with
body `"GOOD"`. -/
def attClean : Nat → Attempt
  | 0 => ⟨"", false, 0⟩
  | 1 => ⟨"", false, 0⟩
  | _ => ⟨"GOOD", true, 200⟩

/-- Attempt oracle whose first, failing attempt delivers partial data
(`"JUNK"`) before the transfer breaks, then fails once cleanly, then
succeeds with body `"GOOD"`. -/
def attDirty : Nat → Attempt
  | 0 => ⟨"JUNK", false, 0⟩
  | 1 => ⟨"", false, 0⟩
  | _ => ⟨"GOOD", true, 200⟩

/-- A model state whose single context contains a space, as
`KmerModel::update` can create (`update` accepts any key string). -/
def spacedModel : KmerModel :=
  [("A B", setCount zeroCounts 0 1)]

/-- A concrete well-behaved model state: context `"AA"` with counts
G ↦ 2, C ↦ 1. -/
def plainModel : KmerModel :=
  [("AA", setCount (setCount zeroCounts 2 2) 1 1)]

/-- The digit values of the decimal numeral of `n`, most significant
first (`[0]` for zero); proof-side description of `natToDec`. -/
def decDigits (n : Nat) : List Nat :=
  if n = 0 then [0] else (Nat.digits 10 n).reverse

/-- The value a most-significant-first digit list denotes (the
accumulator loop of `readNat`). -/
def decValue (ds : List Nat) : Nat :=
  ds.foldl (fun a d => a * 10 + d) 0

/-- Application of one parsed record, as the `load` loop body does. -/
def applySaved (m : KmerModel) (r : SaveRecord) : KmerModel :=
  applyRecord m r.ctx r.base r.count

/-- Application of every record `save` emits for one map entry. -/
def applyEntry (M : KmerModel) (e : String × Counts) : KmerModel :=
  (entryRecords e.1 e.2).foldl applySaved M

/-! ### Theorems -/

/-- The counting loop of `gc_content` computes the two `countP`s. -/
theorem gcStep_foldl (s : List Char) : ∀ gc tot : Nat,
    s.foldl gcStep (gc, tot) = (gc + s.countP isGcChar, tot + s.countP isNucChar) := by
  induction s with
  | nil => intro gc tot; simp
  | cons c s ih =>
    intro gc tot
    simp only [List.foldl_cons, gcStep, List.countP_cons]
    rw [ih]
    by_cases h1 : isGcChar c <;> by_cases h2 : isNucChar c <;>
      simp [h1, h2] <;> omega

/-- Every character counted by the numerator of `gc_content` is counted by
its denominator. -/
theorem isGcChar_le_isNucChar (c : Char) (h : isGcChar c = true) : isNucChar c = true := by
  simp only [isGcChar, Bool.or_eq_true, decide_eq_true_eq] at h
  rcases h with h | h <;> simp [isNucChar, h]

/-- C9: a sequence shorter than 2 residues passes through the pipeline
unmodified and the model is untouched (`if (sequence.size() >= 2)`). -/
theorem pipeline_short (m : KmerModel) (s : List Char) (h : s.length < 2) :
    pipeline m s = (s, m) := by
  match s with
  | [] => rfl
  | [c] => rfl
  | a :: b :: t => simp only [List.length_cons] at h; omega

/-- Witness for `pipeline_short` at the one-residue input `['A']`. -/
theorem pipeline_short_witness : pipeline [] ['A'] = (['A'], ([] : KmerModel)) :=
  pipeline_short [] ['A'] (by decide)

/-- C1 (code bug): on `"ABCDXYZ"` the implemented `gc_content` returns
1/2 — the numerator counts only `C`, the denominator only `A` and `C` —
whereas the repository's own test `GCContent.IgnoresInvalid`
(`gc_content_test.cpp`) and the spec expect 0.25. -/
theorem gc_content_ABCDXYZ :
    gc_content ("ABCDXYZ".data) = 1 / 2 ∧ (1 : ℚ) / 2 ≠ 1 / 4 := by
  constructor
  · have h : ("ABCDXYZ".data).foldl gcStep (0, 0) = (1, 2) := by decide
    unfold gc_content
    rw [h]
    norm_num
  · norm_num

/-- C7: `gc_content` counts exactly the {G,C} residues (case-insensitive)
over exactly the {A,T,G,C,U} residues (case-insensitive), returns 0 for a
zero denominator instead of dividing, and always lies in [0, 1]. -/
theorem gc_content_spec (s : List Char) :
    gc_content s =
      (if s.countP isNucChar = 0 then 0
       else (s.countP isGcChar : ℚ) / (s.countP isNucChar : ℚ)) ∧
    0 ≤ gc_content s ∧ gc_content s ≤ 1 := by
  have hfold := gcStep_foldl s 0 0
  have hle : s.countP isGcChar ≤ s.countP isNucChar :=
    List.countP_mono_left fun c _ => isGcChar_le_isNucChar c
  have heq : gc_content s =
      (if s.countP isNucChar = 0 then 0
       else (s.countP isGcChar : ℚ) / (s.countP isNucChar : ℚ)) := by
    unfold gc_content
    rw [hfold]
    simp
  refine ⟨heq, ?_, ?_⟩ <;> rw [heq]
  · split
    · norm_num
    · positivity
  · split
    · norm_num
    · rename_i hd
      rw [div_le_one (by positivity)]
      exact_mod_cast hle

/-- `index` rejects exactly the characters outside {A,C,G,T}. -/
theorem index?_eq_none_iff (b : Char) : KmerModel.index? b = none ↔ isACGT b = false := by
  unfold KmerModel.index? isACGT
  by_cases h1 : b = 'A' <;> by_cases h2 : b = 'C' <;> by_cases h3 : b = 'G' <;>
    by_cases h4 : b = 'T' <;> simp [h1, h2, h3, h4]

/-- `getCount` on `nil`. -/
theorem getCount_nil (ctx : String) (i : Fin 4) : KmerModel.getCount [] ctx i = 0 := rfl

/-- `lookupCtx` on a cons cell. -/
theorem lookupCtx_cons (c : String) (arr : Counts) (rest : KmerModel) (ctx : String) :
    KmerModel.lookupCtx ((c, arr) :: rest) ctx =
      if c = ctx then some arr else KmerModel.lookupCtx rest ctx := rfl

/-- `getCount` on a cons cell. -/
theorem getCount_cons (c : String) (arr : Counts) (rest : KmerModel) (ctx : String) (i : Fin 4) :
    KmerModel.getCount ((c, arr) :: rest) ctx i =
      if c = ctx then arr i else KmerModel.getCount rest ctx i := by
  unfold KmerModel.getCount
  rw [lookupCtx_cons]
  by_cases h : c = ctx <;> simp [h]

/-- `table_[ctx][idx]++` increments the `(ctx, i)` count and no other. -/
theorem getCount_bumpEntry (m : KmerModel) (ctx : String) (i : Fin 4) (ctx' : String) (i' : Fin 4) :
    KmerModel.getCount (KmerModel.bumpEntry m ctx i) ctx' i' =
      KmerModel.getCount m ctx' i' + (if ctx' = ctx ∧ i' = i then 1 else 0) := by
  induction m with
  | nil =>
    by_cases hc : ctx = ctx'
    · subst hc
      by_cases hi : i' = i <;>
        simp [KmerModel.bumpEntry, getCount_cons, getCount_nil, KmerModel.bump, zeroCounts, hi]
    · have hc2 : ¬(ctx' = ctx) := fun h => hc h.symm
      simp [KmerModel.bumpEntry, getCount_cons, getCount_nil, hc, hc2]
  | cons e rest ih =>
    obtain ⟨c, arr⟩ := e
    by_cases hk : c = ctx
    · subst hk
      by_cases hq : c = ctx'
      · subst hq
        by_cases hi : i' = i <;>
          simp [KmerModel.bumpEntry, getCount_cons, KmerModel.bump, hi]
      · have hq2 : ¬(ctx' = c) := fun h => hq h.symm
        simp [KmerModel.bumpEntry, getCount_cons, hq, hq2]
    · by_cases hq : c = ctx'
      · subst hq
        have hk2 : ¬(c = ctx) := hk
        have hpair : ¬(c = ctx ∧ i' = i) := fun h => hk2 h.1
        simp [KmerModel.bumpEntry, getCount_cons, hk2, hpair]
      · simp [KmerModel.bumpEntry, getCount_cons, hk, hq, ih]

/-- C8: `update` with a base in {A,C,G,T} increments exactly the
`(ctx, base)` count by one and changes no other count (contexts absent
from the table read as all-zero); `update` with any other base leaves
the model entirely unchanged and raises no error. -/
theorem update_spec (m : KmerModel) (ctx : String) (b : Char) :
    (isACGT b = false → KmerModel.update m ctx b = m) ∧
    (isACGT b = true →
      ∀ ctx' i', KmerModel.getCount (KmerModel.update m ctx b) ctx' i' =
        KmerModel.getCount m ctx' i' +
          (if ctx' = ctx ∧ KmerModel.index? b = some i' then 1 else 0)) := by
  constructor
  · intro h
    unfold KmerModel.update
    rw [(index?_eq_none_iff b).mpr h]
  · intro h ctx' i'
    have hsome : KmerModel.index? b ≠ none := by
      intro hn
      rw [index?_eq_none_iff] at hn
      simp [h] at hn
    obtain ⟨i, hi⟩ := Option.ne_none_iff_exists'.mp hsome
    unfold KmerModel.update
    rw [hi]
    rw [getCount_bumpEntry]
    congr 1
    by_cases hc : ctx' = ctx <;> by_cases hii : i' = i <;>
      simp [hc, hii, eq_comm]

/-- The scan of `KmerModel::predict` keeps `idx = -1` when every count is
zero. -/
theorem scan_all_zero (arr : Counts) (h : ∀ i, arr i = 0) :
    (List.foldl (KmerModel.scanStep arr) (0, none) fourIndices).2 = none := by
  simp [fourIndices, KmerModel.scanStep, h]

/-- The scan of `KmerModel::predict` lands on the first index attaining
the (positive) maximum count: `arr[i] > best` is strict, so an earlier
equal count is never displaced. -/
theorem scan_first_max (arr : Counts) (j : Fin 4) (hpos : 0 < arr j)
    (hmax : ∀ k, arr k ≤ arr j) (hfirst : ∀ k, k < j → arr k < arr j) :
    (List.foldl (KmerModel.scanStep arr) (0, none) fourIndices).2 = some j := by
  fin_cases j
  · have hp : 0 < arr 0 := hpos
    have h1 : arr 1 ≤ arr 0 := hmax 1
    have h2 : arr 2 ≤ arr 0 := hmax 2
    have h3 : arr 3 ≤ arr 0 := hmax 3
    simp only [fourIndices, List.foldl_cons, List.foldl_nil, KmerModel.scanStep]
    split_ifs <;> (try dsimp only at *) <;> first | rfl | omega
  · have hp : 0 < arr 1 := hpos
    have f0 : arr 0 < arr 1 := hfirst 0 (by decide)
    have h2 : arr 2 ≤ arr 1 := hmax 2
    have h3 : arr 3 ≤ arr 1 := hmax 3
    simp only [fourIndices, List.foldl_cons, List.foldl_nil, KmerModel.scanStep]
    split_ifs <;> (try dsimp only at *) <;> first | rfl | omega
  · have hp : 0 < arr 2 := hpos
    have f0 : arr 0 < arr 2 := hfirst 0 (by decide)
    have f1 : arr 1 < arr 2 := hfirst 1 (by decide)
    have h3 : arr 3 ≤ arr 2 := hmax 3
    simp only [fourIndices, List.foldl_cons, List.foldl_nil, KmerModel.scanStep]
    split_ifs <;> (try dsimp only at *) <;> first | rfl | omega
  · have hp : 0 < arr 3 := hpos
    have f0 : arr 0 < arr 3 := hfirst 0 (by decide)
    have f1 : arr 1 < arr 3 := hfirst 1 (by decide)
    have f2 : arr 2 < arr 3 := hfirst 2 (by decide)
    simp only [fourIndices, List.foldl_cons, List.foldl_nil, KmerModel.scanStep]
    split_ifs <;> (try dsimp only at *) <;> rfl

/-- C3: `predict` returns `'N'` for an unseen context; returns `'N'` when
every count of a present context is zero; and for the first index `j`
carrying the (positive) maximum count — i.e. the base with the strictly
highest count, ties resolved to the lowest index in the canonical order
A<C<G<T — it returns that base. -/
theorem predict_spec (m : KmerModel) (ctx : String) :
    (KmerModel.lookupCtx m ctx = none → KmerModel.predict m ctx = 'N') ∧
    (∀ arr, KmerModel.lookupCtx m ctx = some arr →
      ((∀ i, arr i = 0) → KmerModel.predict m ctx = 'N') ∧
      (∀ j, 0 < arr j → (∀ k, arr k ≤ arr j) → (∀ k, k < j → arr k < arr j) →
        KmerModel.predict m ctx = KmerModel.base_from_index (some j))) := by
  constructor
  · intro h
    unfold KmerModel.predict
    rw [h]
  · intro arr h
    constructor
    · intro hz
      unfold KmerModel.predict
      rw [h]
      dsimp only
      rw [scan_all_zero arr hz]
      rfl
    · intro j hj hmax hfirst
      unfold KmerModel.predict
      rw [h]
      dsimp only
      rw [scan_first_max arr j hj hmax hfirst]

/-- A canonical residue is returned unchanged by the per-position
correction: the substitution branch is skipped and the `'U'` rewrite
cannot fire. -/
theorem imputeBase_of_acgt (m : KmerModel) (ctx : String) (c : Char)
    (h : isACGT c = true) : imputeBase m ctx c = c := by
  have hu : c ≠ 'U' := by
    intro hc
    rw [hc] at h
    exact absurd h (by decide)
  simp [imputeBase, h, hu]

/-- Positions holding a canonical residue pass through the imputation
loop unchanged. -/
theorem imputeAux_keeps_acgt (s : List Char) :
    ∀ (m : KmerModel) (p2 p1 : Char) (i : Nat) (c : Char),
      s[i]? = some c → isACGT c = true →
      ((imputeAux m p2 p1 s).1)[i]? = some c := by
  induction s with
  | nil =>
    intro m p2 p1 i c h _
    simp at h
  | cons a s ih =>
    intro m p2 p1 i c h hc
    match i with
    | 0 =>
      rw [List.getElem?_cons_zero] at h
      injection h with h
      subst h
      simp only [imputeAux, List.getElem?_cons_zero]
      rw [imputeBase_of_acgt m _ a hc]
    | Nat.succ k =>
      rw [List.getElem?_cons_succ] at h
      simp only [imputeAux, List.getElem?_cons_succ]
      exact ih _ _ _ k c h hc

/-- C10: wherever the input residue is canonical (in {A,C,G,T}), the
pipeline's output residue equals the input residue — only non-canonical
residues (including `'U'`, rewritten to `'T'`) can differ. -/
theorem pipeline_keeps_acgt (m : KmerModel) (s : List Char) (i : Nat) (c : Char)
    (h1 : s[i]? = some c) (h2 : isACGT c = true) :
    ((pipeline m s).1)[i]? = some c := by
  match s with
  | [] => simp at h1
  | [a] => simpa [pipeline] using h1
  | a :: b :: t =>
    match i with
    | 0 => simpa [pipeline] using h1
    | 1 => simpa [pipeline] using h1
    | Nat.succ (Nat.succ k) =>
      simp only [pipeline, List.getElem?_cons_succ] at h1 ⊢
      exact imputeAux_keeps_acgt t m a b k c h1 h2

/-- Witness for `pipeline_keeps_acgt`: position 2 of `"AAC"` holds the
canonical `'C'` and survives the pipeline. -/
theorem pipeline_keeps_acgt_witness : ((pipeline [] ['A', 'A', 'C']).1)[2]? = some 'C' :=
  pipeline_keeps_acgt [] ['A', 'A', 'C'] 2 'C' (by decide) (by decide)

/-- The corrected tail produced by the imputation loop agrees on the
first `n` positions whenever the inputs agree on the first `n`
positions: each step reads only the current residue and the
already-corrected predecessors. -/
theorem imputeAux_take (n : Nat) :
    ∀ (s t : List Char) (m : KmerModel) (p2 p1 : Char), s.take n = t.take n →
      ((imputeAux m p2 p1 s).1).take n = ((imputeAux m p2 p1 t).1).take n := by
  induction n with
  | zero => intro s t m p2 p1 _; simp
  | succ n ih =>
    intro s t m p2 p1 h
    match s, t with
    | [], [] => rfl
    | [], c :: t2 => simp [List.take_succ_cons] at h
    | c :: s2, [] => simp [List.take_succ_cons] at h
    | c :: s2, d :: t2 =>
      rw [List.take_succ_cons, List.take_succ_cons, List.cons.injEq] at h
      obtain ⟨rfl, h2⟩ := h
      simp only [imputeAux, List.take_succ_cons, List.cons.injEq]
      exact ⟨trivial, ih s2 t2 _ _ _ h2⟩

/-- The pipeline passes the first two residues through unchanged. -/
theorem pipeline_take_two (m : KmerModel) (s : List Char) :
    ((pipeline m s).1).take 2 = s.take 2 := by
  match s with
  | [] => rfl
  | [a] => rfl
  | a :: b :: t => simp [pipeline]

/-- Prefix agreement of inputs gives prefix agreement of pipeline
outputs. -/
theorem pipeline_take (n : Nat) (m : KmerModel) (s t : List Char)
    (h : s.take n = t.take n) :
    ((pipeline m s).1).take n = ((pipeline m t).1).take n := by
  by_cases hn : n ≤ 2
  · have hmin : min n 2 = n := by omega
    have key : ∀ u : List Char, ((pipeline m u).1).take n = u.take n := by
      intro u
      calc ((pipeline m u).1).take n
          = (((pipeline m u).1).take 2).take n := by rw [List.take_take, hmin]
        _ = (u.take 2).take n := by rw [pipeline_take_two]
        _ = u.take n := by rw [List.take_take, hmin]
    rw [key s, key t]
    exact h
  · obtain ⟨k, rfl⟩ : ∃ k, n = k + 3 := ⟨n - 3, by omega⟩
    match s, t with
    | [], [] => rfl
    | [], c :: t2 => simp [List.take_succ_cons] at h
    | c :: s2, [] => simp [List.take_succ_cons] at h
    | [a], [b] =>
      simp only [List.take_succ_cons, List.take_nil, List.cons.injEq] at h
      rw [h.1]
    | [a], b :: c :: t2 => simp [List.take_succ_cons] at h
    | a :: b :: s2, [c] => simp [List.take_succ_cons] at h
    | a :: b :: s2, c :: d :: t2 =>
      rw [List.take_succ_cons, List.take_succ_cons, List.take_succ_cons,
        List.take_succ_cons, List.cons.injEq, List.cons.injEq] at h
      obtain ⟨rfl, rfl, h3⟩ := h
      simp only [pipeline, List.take_succ_cons, List.cons.injEq]
      exact ⟨trivial, trivial, imputeAux_take (k + 1) s2 t2 m a b h3⟩

/-- C4: the pipeline is causal — whenever two input sequences agree on
positions 0 through `i` (as the prefix of length `i + 1`), the corrected
outputs agree at position `i`, for the same starting model.  A
position's correction thus never depends on residues after its own
index. -/
theorem pipeline_causal (m : KmerModel) (s t : List Char) (i : Nat)
    (h : s.take (i + 1) = t.take (i + 1)) :
    ((pipeline m s).1)[i]? = ((pipeline m t).1)[i]? := by
  have h2 := pipeline_take (i + 1) m s t h
  have e1 : (((pipeline m s).1).take (i + 1))[i]? = ((pipeline m s).1)[i]? := by
    rw [List.getElem?_take]
    simp
  have e2 : (((pipeline m t).1).take (i + 1))[i]? = ((pipeline m t).1)[i]? := by
    rw [List.getElem?_take]
    simp
  rw [← e1, ← e2, h2]

/-- Witness for `pipeline_causal`: the inputs `"AAX"` and `"AAXG"` agree
on positions 0–2, so the outputs agree at position 2. -/
theorem pipeline_causal_witness :
    ((pipeline [] ['A', 'A', 'X']).1)[2]? = ((pipeline [] ['A', 'A', 'X', 'G']).1)[2]? :=
  pipeline_causal [] ['A', 'A', 'X'] ['A', 'A', 'X', 'G'] 2 (by decide)

/-- `bumpEntry` only adds the key it was given: every key of the result
was a key of the model or is `ctx` itself. -/
theorem bumpEntry_keys (m : KmerModel) (ctx : String) (i : Fin 4) :
    ∀ p ∈ KmerModel.bumpEntry m ctx i, p.1 = ctx ∨ p ∈ m := by
  induction m with
  | nil =>
    intro p hp
    simp only [KmerModel.bumpEntry, List.mem_singleton] at hp
    subst hp
    exact Or.inl rfl
  | cons e rest ih =>
    intro p hp
    obtain ⟨c, arr⟩ := e
    by_cases hc : c = ctx
    · simp only [KmerModel.bumpEntry, if_pos hc] at hp
      rcases List.mem_cons.mp hp with h | h
      · subst h; exact Or.inl hc
      · exact Or.inr (List.mem_cons_of_mem _ h)
    · simp only [KmerModel.bumpEntry, if_neg hc] at hp
      rcases List.mem_cons.mp hp with h | h
      · subst h; exact Or.inr (List.mem_cons_self _ _)
      · rcases ih p h with h2 | h2
        · exact Or.inl h2
        · exact Or.inr (List.mem_cons_of_mem _ h2)

/-- `update` only adds the key it was given. -/
theorem update_keys (m : KmerModel) (ctx : String) (b : Char) :
    ∀ p ∈ KmerModel.update m ctx b, p.1 = ctx ∨ p ∈ m := by
  unfold KmerModel.update
  match KmerModel.index? b with
  | some i => exact bumpEntry_keys m ctx i
  | none => intro p hp; exact Or.inr hp

/-- Every key the imputation loop adds to the model is a two-character
context built from two residues. -/
theorem imputeAux_keys_len (s : List Char) :
    ∀ (m : KmerModel) (p2 p1 : Char), (∀ p ∈ m, p.1.length = 2) →
      ∀ p ∈ (imputeAux m p2 p1 s).2, p.1.length = 2 := by
  induction s with
  | nil => intro m p2 p1 hm; exact hm
  | cons c s ih =>
    intro m p2 p1 hm
    simp only [imputeAux]
    apply ih
    intro p hp
    rcases update_keys m (ctxOf p2 p1) (imputeBase m (ctxOf p2 p1) c) p hp with h | h
    · rw [h]; rfl
    · exact hm p h

/-- Every key of the model produced by a pipeline run has length 2. -/
theorem pipeline_keys_len (m : KmerModel) (s : List Char)
    (hm : ∀ p ∈ m, p.1.length = 2) : ∀ p ∈ (pipeline m s).2, p.1.length = 2 := by
  match s with
  | [] => exact hm
  | [a] => exact hm
  | a :: b :: t => exact imputeAux_keys_len t m a b hm

/-- Every key of a model reached by running the pipeline from the empty
model has length 2. -/
theorem runAll_keys_len (inputs : List (List Char)) :
    ∀ p ∈ runAll inputs, p.1.length = 2 := by
  unfold runAll
  generalize hgen : ([] : KmerModel) = m0
  have h0 : ∀ p ∈ m0, p.1.length = 2 := by rw [← hgen]; intro p hp; simp at hp
  clear hgen
  induction inputs generalizing m0 with
  | nil => exact h0
  | cons s rest ih =>
    simp only [List.foldl_cons]
    exact ih _ (pipeline_keys_len m0 s h0)

/-- Anatomy of a record of `KmerModel::save`: it comes from an entry
`(ctx, arr)` of the table and a slot `i` with `arr[i] > 0`. -/
theorem mem_saveRecords (m : KmerModel) (r : SaveRecord) (hr : r ∈ KmerModel.saveRecords m) :
    ∃ ctx arr i, (ctx, arr) ∈ m ∧ 0 < arr i ∧
      r = ⟨ctx, KmerModel.base_from_index (some i), arr i⟩ := by
  unfold KmerModel.saveRecords at hr
  rw [List.mem_flatten] at hr
  obtain ⟨l, hl, hrl⟩ := hr
  rw [List.mem_map] at hl
  obtain ⟨e, he, rfl⟩ := hl
  unfold entryRecords at hrl
  rw [List.mem_filterMap] at hrl
  obtain ⟨i, _, hi⟩ := hrl
  by_cases hpos : 0 < e.2 i
  · rw [if_pos hpos] at hi
    injection hi with hi
    exact ⟨e.1, e.2, i, he, hpos, hi.symm⟩
  · rw [if_neg hpos] at hi
    cases hi

/-- `base_from_index` of a valid slot is a canonical base. -/
theorem base_from_index_acgt (i : Fin 4) :
    isACGT (KmerModel.base_from_index (some i)) = true := by
  fin_cases i <;> decide

/-- C2 (amended): every record in a model file produced by `save`, for a
model state reached by running the pipeline (from the empty model) over
any input sequences, has a 2-character context, a base in {A,C,G,T} and
a strictly positive count.  The context need NOT be over {A,C,G,T}: see
`saveRecords_nonACGT_ctx`. -/
theorem saveRecords_shape (inputs : List (List Char)) :
    ∀ r ∈ KmerModel.saveRecords (runAll inputs),
      r.ctx.length = 2 ∧ isACGT r.base = true ∧ 0 < r.count := by
  intro r hr
  obtain ⟨ctx, arr, i, hmem, hpos, rfl⟩ := mem_saveRecords _ r hr
  exact ⟨runAll_keys_len inputs (ctx, arr) hmem, base_from_index_acgt i, hpos⟩

/-- Witness for `saveRecords_shape`: running the pipeline on `"AAC"`
yields exactly the record `AA C 1`. -/
theorem saveRecords_shape_witness :
    (SaveRecord.mk "AA" 'C' 1).ctx.length = 2 ∧
      isACGT (SaveRecord.mk "AA" 'C' 1).base = true ∧ 0 < (SaveRecord.mk "AA" 'C' 1).count :=
  saveRecords_shape [['A', 'A', 'C']] ⟨"AA", 'C', 1⟩ (by decide)

/-- C2 (counterexample to the claim as stated): the input `"XXA"` — the
normaliser keeps any alphabetic residue, and an uncorrectable residue
stays in the sequence — drives the pipeline to update the model under
the context `"XX"`, so `save` emits the record `XX A 1`, whose context
is not a string over {A,C,G,T}. -/
theorem saveRecords_nonACGT_ctx :
    KmerModel.saveRecords (runAll [['X', 'X', 'A']]) = [⟨"XX", 'A', 1⟩] ∧
      'X' ∈ ("XX" : String).data ∧ isACGT 'X' = false := by
  refine ⟨by decide, by decide, by decide⟩

/-- C6 (amended): with the first two attempts failing, (a) if the third
attempt succeeds with HTTP 200, `fetch_sequence` returns the shared
buffer — the successful attempt's body *prefixed by whatever bytes the
failed attempts wrote*, hence exactly the successful result when the
failed attempts wrote nothing — after 3 attempts and back-off sleeps of
100 ms and 200 ms; (b) if the third attempt also fails, it throws the
network error, returns nothing, and has made exactly 3 attempts with
sleeps 100, 200 and 400 ms. -/
theorem fetch_retry_spec (att : Nat → Attempt)
    (h0 : (att 0).ok = false) (h1 : (att 1).ok = false) :
    ((att 2).ok = true → (att 2).status = 200 →
      fetchRemote att =
        ⟨Except.ok ((att 0).written ++ (att 1).written ++ (att 2).written), 3, [100, 200]⟩) ∧
    ((att 2).ok = false →
      fetchRemote att =
        ⟨Except.error "Network error while fetching sequence", 3, [100, 200, 400]⟩) := by
  constructor
  · intro h2 hs
    simp [fetchRemote, runAttempts, h0, h1, h2, hs]
  · intro h2
    simp [fetchRemote, runAttempts, h0, h1, h2]

/-- Witness for `fetch_retry_spec`: two clean failures, then success. -/
theorem fetch_retry_spec_witness :
    fetchRemote attClean =
      ⟨Except.ok ((attClean 0).written ++ (attClean 1).written ++ (attClean 2).written),
        3, [100, 200]⟩ :=
  (fetch_retry_spec attClean rfl rfl).1 rfl rfl

/-- C6 (counterexample to the claim as stated): when the first, failing
attempt delivered partial data before breaking — the write callback
appends to a buffer that is never cleared between attempts — the value
returned after the third, successful attempt is `"JUNKGOOD"`, not the
successful attempt's own result `"GOOD"`. -/
theorem fetch_retry_partial_data :
    (fetchRemote attDirty).result = Except.ok "JUNKGOOD" ∧
      (attDirty 2).written = "GOOD" ∧ "JUNKGOOD" ≠ "GOOD" := by
  refine ⟨rfl, rfl, by decide⟩

/-- Digit values of `decDigits` are below 10. -/
theorem decDigits_lt (n : Nat) : ∀ d ∈ decDigits n, d < 10 := by
  intro d hd
  unfold decDigits at hd
  split at hd
  · simp at hd
    omega
  · rw [List.mem_reverse] at hd
    exact Nat.digits_lt_base (by norm_num) hd

/-- `decDigits` is never empty. -/
theorem decDigits_ne_nil (n : Nat) : decDigits n ≠ [] := by
  unfold decDigits
  split
  · simp
  · rename_i h
    simp [Nat.digits_ne_nil_iff_ne_zero, h]

/-- The digit-extraction loop realises `decDigits` whenever the fuel
dominates the numeral. -/
theorem natToDecAux_eq (fuel : Nat) :
    ∀ (n : Nat) (acc : List Char), 0 < n → n < 10 ^ fuel →
      natToDecAux fuel n acc = ((Nat.digits 10 n).reverse.map digitChar) ++ acc := by
  induction fuel with
  | zero =>
    intro n acc hn hlt
    simp at hlt
    omega
  | succ fuel ih =>
    intro n acc hn hlt
    rw [Nat.digits_def' (by norm_num : (1:Nat) < 10) hn]
    by_cases hsmall : n < 10
    · have h10 : n / 10 = 0 := Nat.div_eq_of_lt hsmall
      rw [natToDecAux, if_pos hsmall, h10, Nat.digits_zero]
      simp [Nat.mod_eq_of_lt hsmall]
    · have hdivpos : 0 < n / 10 := Nat.div_pos (by omega) (by norm_num)
      have hdivlt : n / 10 < 10 ^ fuel := by
        rw [Nat.div_lt_iff_lt_mul (by norm_num)]
        rw [pow_succ] at hlt
        exact hlt
      rw [natToDecAux, if_neg hsmall, ih (n / 10) _ hdivpos hdivlt]
      rw [List.reverse_cons, List.map_append]
      simp

/-- `natToDec` prints exactly the digits of `decDigits`. -/
theorem natToDec_eq (n : Nat) : natToDec n = (decDigits n).map digitChar := by
  by_cases h : n = 0
  · subst h
    rfl
  · unfold natToDec decDigits
    rw [if_neg h, natToDecAux_eq (n + 1) n [] (by omega)
      (lt_of_lt_of_le (Nat.lt_pow_self (by norm_num) n) (Nat.pow_le_pow_right (by norm_num) (by omega)))]
    simp

/-- Reading a most-significant-first digit list back left-to-right
recovers `a * 10^len + value`. -/
theorem foldl_digits_reverse (ds : List Nat) :
    ∀ a : Nat, ds.reverse.foldl (fun a d => a * 10 + d) a =
      a * 10 ^ ds.length + Nat.ofDigits 10 ds := by
  induction ds with
  | nil => intro a; simp
  | cons d ds ih =>
    intro a
    rw [List.reverse_cons, List.foldl_append, ih a]
    simp only [List.foldl_cons, List.foldl_nil, Nat.ofDigits_cons, List.length_cons]
    rw [pow_succ]
    ring

/-- `decDigits` denotes `n` itself. -/
theorem decValue_decDigits (n : Nat) : decValue (decDigits n) = n := by
  unfold decValue decDigits
  by_cases h : n = 0
  · subst h; rfl
  · rw [if_neg h, foldl_digits_reverse]
    simpa using Nat.ofDigits_digits 10 n

/-- Digit characters are digits for `digitVal?`, and recover their
value. -/
theorem digitVal?_digitChar (d : Nat) (hd : d < 10) : digitVal? (digitChar d) = some d := by
  interval_cases d <;> rfl

/-- Digit characters are not stream whitespace. -/
theorem digitChar_not_ws (d : Nat) (hd : d < 10) : isStreamWs (digitChar d) = false := by
  interval_cases d <;> rfl

/-- `skipWs` consumes an all-whitespace prefix. -/
theorem skipWs_ws_append (w : List Char) (s : List Char)
    (hw : ∀ c ∈ w, isStreamWs c = true) : skipWs (w ++ s) = skipWs s := by
  induction w with
  | nil => rfl
  | cons c w ih =>
    rw [List.cons_append, skipWs, if_pos (hw c (List.mem_cons_self c w))]
    exact ih fun c hc => hw c (List.mem_cons_of_mem _ hc)

/-- `skipWs` stops at a non-whitespace head. -/
theorem skipWs_not_ws (c : Char) (s : List Char) (hc : isStreamWs c = false) :
    skipWs (c :: s) = c :: s := by
  rw [skipWs, if_neg (by simp [hc])]

/-- `takeTok` splits a whitespace-free run from a whitespace-or-empty
continuation. -/
theorem takeTok_append (t : List Char) (s : List Char)
    (ht : ∀ c ∈ t, isStreamWs c = false)
    (hs : ∀ c, s.head? = some c → isStreamWs c = true) :
    takeTok (t ++ s) = (t, s) := by
  induction t with
  | nil =>
    match s with
    | [] => rfl
    | c :: s2 =>
      have := hs c rfl
      rw [List.nil_append, takeTok, if_pos this]
  | cons c t ih =>
    rw [List.cons_append, takeTok, if_neg (by simp [ht c (List.mem_cons_self c t)])]
    rw [ih fun c hc => ht c (List.mem_cons_of_mem _ hc)]

/-- `operator>>` into a string reads a non-empty whitespace-free token
preceded by optional whitespace. -/
theorem readToken_of (w t s : List Char)
    (hw : ∀ c ∈ w, isStreamWs c = true)
    (htne : t ≠ [])
    (ht : ∀ c ∈ t, isStreamWs c = false)
    (hs : ∀ c, s.head? = some c → isStreamWs c = true) :
    readToken (w ++ t ++ s) = some (String.mk t, s) := by
  unfold readToken
  rw [List.append_assoc, skipWs_ws_append w (t ++ s) hw]
  have hsk : skipWs (t ++ s) = t ++ s := by
    match t, htne with
    | c :: t2, _ =>
      rw [List.cons_append]
      exact skipWs_not_ws c (t2 ++ s) (ht c (List.mem_cons_self c t2))
  rw [hsk, takeTok_append t s ht hs]
  simp [htne]

/-- `operator>>` into a char reads the first character after optional
whitespace. -/
theorem readChar_of (w : List Char) (b : Char) (s : List Char)
    (hw : ∀ c ∈ w, isStreamWs c = true)
    (hb : isStreamWs b = false) :
    readChar (w ++ b :: s) = some (b, s) := by
  unfold readChar
  rw [skipWs_ws_append w _ hw, skipWs_not_ws b s hb]

/-- `takeDigits` splits a digit run from a non-digit continuation. -/
theorem takeDigits_append (ds : List Nat) (s : List Char)
    (hds : ∀ d ∈ ds, d < 10)
    (hs : ∀ c, s.head? = some c → digitVal? c = none) :
    takeDigits ((ds.map digitChar) ++ s) = (ds, s) := by
  induction ds with
  | nil =>
    match s with
    | [] => rfl
    | c :: s2 =>
      have := hs c rfl
      rw [List.map_nil, List.nil_append, takeDigits, this]
  | cons d ds ih =>
    rw [List.map_cons, List.cons_append, takeDigits,
      digitVal?_digitChar d (hds d (List.mem_cons_self d ds))]
    rw [ih fun d hd => hds d (List.mem_cons_of_mem _ hd)]

/-- `operator>>` into a `size_t` reads the decimal numeral `save` wrote
for `n`, when followed by a non-digit character. -/
theorem readNat_of (w : List Char) (n : Nat) (s : List Char)
    (hw : ∀ c ∈ w, isStreamWs c = true)
    (hs1 : ∀ c, s.head? = some c → digitVal? c = none) :
    readNat (w ++ natToDec n ++ s) = some (n, s) := by
  unfold readNat
  rw [List.append_assoc, skipWs_ws_append w _ hw, natToDec_eq]
  have hne : (decDigits n).map digitChar ≠ [] := by
    simp [decDigits_ne_nil n]
  have hsk : skipWs ((decDigits n).map digitChar ++ s) = (decDigits n).map digitChar ++ s := by
    match hd : (decDigits n).map digitChar, hne with
    | c :: t2, _ =>
      have hc : c ∈ (decDigits n).map digitChar := by rw [hd]; exact List.mem_cons_self _ _
      rw [List.mem_map] at hc
      obtain ⟨d, hdm, rfl⟩ := hc
      rw [List.cons_append]
      exact skipWs_not_ws _ _ (digitChar_not_ws d (decDigits_lt n d hdm))
  rw [hsk, takeDigits_append (decDigits n) s (decDigits_lt n) hs1]
  have h1 : decDigits n ≠ [] := decDigits_ne_nil n
  have h2 : List.foldl (fun a d => a * 10 + d) 0 (decDigits n) = n := decValue_decDigits n
  simp [h1, h2]

/-- One loop condition `in >> ctx >> base >> count` of `load` consumes
exactly one saved line (with optional leading whitespace), recovering
the record's fields and leaving the stream at the trailing newline. -/
theorem readRecord_line (w : List Char) (r : SaveRecord) (rest : List Char)
    (hw : ∀ c ∈ w, isStreamWs c = true)
    (hctxne : r.ctx.data ≠ [])
    (hctx : ∀ c ∈ r.ctx.data, isStreamWs c = false)
    (hb : isStreamWs r.base = false) :
    readRecord (w ++ recordChars r ++ rest) =
      some ((r.ctx, r.base, r.count), '\n' :: rest) := by
  have hshape : w ++ recordChars r ++ rest =
      w ++ r.ctx.data ++ (' ' :: r.base :: ' ' :: (natToDec r.count ++ '\n' :: rest)) := by
    simp [recordChars, List.append_assoc]
  rw [hshape]
  unfold readRecord
  rw [readToken_of w r.ctx.data _ hw hctxne hctx
    (by intro c hc; rw [List.head?_cons] at hc; injection hc with hc; rw [← hc]; rfl)]
  dsimp only
  have hshape2 : (' ' :: r.base :: ' ' :: (natToDec r.count ++ '\n' :: rest)) =
      [' '] ++ r.base :: (' ' :: (natToDec r.count ++ '\n' :: rest)) := rfl
  rw [hshape2, readChar_of [' '] r.base _ (by decide) hb]
  dsimp only
  have hshape3 : (' ' :: (natToDec r.count ++ '\n' :: rest)) =
      [' '] ++ natToDec r.count ++ ('\n' :: rest) := by
    simp
  rw [hshape3, readNat_of [' '] r.count _ (by decide)
    (by intro c hc; rw [List.head?_cons] at hc; injection hc with hc; rw [← hc]; rfl)]

/-- The `load` loop over a well-formed saved file applies exactly the
saved records, in order. -/
theorem loadLoop_records (rs : List SaveRecord) :
    ∀ (w : List Char) (m : KmerModel) (fuel : Nat),
      (∀ c ∈ w, isStreamWs c = true) →
      (∀ r ∈ rs, r.ctx.data ≠ [] ∧ (∀ c ∈ r.ctx.data, isStreamWs c = false) ∧
        isStreamWs r.base = false) →
      (w ++ (rs.map recordChars).flatten).length < fuel →
      loadLoop fuel m (w ++ (rs.map recordChars).flatten) =
        rs.foldl (fun m r => applyRecord m r.ctx r.base r.count) m := by
  induction rs with
  | nil =>
    intro w m fuel hw _ hfuel
    match fuel, hfuel with
    | fuel + 1, _ =>
      simp only [List.map_nil, List.flatten_nil, List.append_nil, List.foldl_nil]
      rw [loadLoop]
      have hnone : readRecord w = none := by
        unfold readRecord readToken
        have hempty : skipWs w = [] := by
          have h2 := skipWs_ws_append w [] hw
          simpa using h2
        rw [hempty]
        rfl
      rw [hnone]
  | cons r rs ih =>
    intro w m fuel hw hrs hfuel
    obtain ⟨hne, hctx, hb⟩ := hrs r (List.mem_cons_self r rs)
    have hshape : w ++ ((r :: rs).map recordChars).flatten =
        w ++ recordChars r ++ (rs.map recordChars).flatten := by
      simp [List.append_assoc]
    rw [hshape] at hfuel ⊢
    have hreclen : 2 ≤ (recordChars r).length := by
      simp [recordChars]
      omega
    match fuel, hfuel with
    | fuel + 1, hfuel =>
      rw [loadLoop, readRecord_line w r _ hw hne hctx hb]
      dsimp only
      have hcons : ('\n' :: (rs.map recordChars).flatten) =
          ['\n'] ++ (rs.map recordChars).flatten := rfl
      have hlen : (['\n'] ++ (rs.map recordChars).flatten).length < fuel := by
        rw [List.length_append, List.length_append] at hfuel
        rw [List.length_append]
        simp only [List.length_singleton] at *
        omega
      rw [hcons, ih ['\n'] _ fuel (by decide)
        (fun r2 hr2 => hrs r2 (List.mem_cons_of_mem _ hr2)) hlen]
      simp only [List.foldl_cons]

/-- `base_from_index` and `index` are mutually inverse on valid slots. -/
theorem index?_base_from_index (i : Fin 4) :
    KmerModel.index? (KmerModel.base_from_index (some i)) = some i := by
  fin_cases i <;> rfl

/-- A canonical base character is not stream whitespace. -/
theorem base_from_index_not_ws (i : Fin 4) :
    isStreamWs (KmerModel.base_from_index (some i)) = false := by
  fin_cases i <;> rfl

/-- `table_[ctx][idx] = count` sets the `(ctx, i)` count and no other. -/
theorem getCount_setEntry (M : KmerModel) (c : String) (i : Fin 4) (n : Nat)
    (c' : String) (i' : Fin 4) :
    KmerModel.getCount (setEntry M c i n) c' i' =
      if c = c' ∧ i = i' then n else KmerModel.getCount M c' i' := by
  induction M with
  | nil =>
    by_cases hc : c = c'
    · subst hc
      by_cases hi : i = i' <;>
        simp [setEntry, getCount_cons, getCount_nil, setCount, zeroCounts, hi, eq_comm]
    · simp [setEntry, getCount_cons, getCount_nil, hc]
  | cons e rest ih =>
    obtain ⟨k, arr⟩ := e
    by_cases hk : k = c
    · subst hk
      by_cases hq : k = c'
      · subst hq
        by_cases hi : i = i' <;>
          simp [setEntry, getCount_cons, setCount, hi, eq_comm]
      · simp [setEntry, getCount_cons, hq]
    · by_cases hq : k = c'
      · subst hq
        have hck : ¬(c = k) := fun h => hk h.symm
        have hpair : ¬(c = k ∧ i = i') := fun h => hck h.1
        simp [setEntry, getCount_cons, hk, hpair]
      · simp [setEntry, getCount_cons, hk, hq, ih]

/-- The `load` loop body sets the `(ctx, index(base))` count and no
other, and skips records with an invalid base. -/
theorem getCount_applyRecord (M : KmerModel) (ctx : String) (b : Char) (n : Nat)
    (c' : String) (i' : Fin 4) :
    KmerModel.getCount (applyRecord M ctx b n) c' i' =
      if ctx = c' ∧ KmerModel.index? b = some i' then n
      else KmerModel.getCount M c' i' := by
  unfold applyRecord
  cases h : KmerModel.index? b with
  | none => simp [h]
  | some i =>
    rw [getCount_setEntry]
    by_cases hc : ctx = c' <;> by_cases hi : i = i' <;> simp [hc, hi]

/-- Folding the records `save` emits for one entry over `applySaved`
realises exactly the entry's positive counts. -/
theorem getCount_entry_fold_aux (c : String) (arr : Counts) (L : List (Fin 4)) :
    ∀ (M : KmerModel) (c' : String) (i' : Fin 4),
      KmerModel.getCount ((L.filterMap fun i =>
          if 0 < arr i then some (⟨c, KmerModel.base_from_index (some i), arr i⟩ : SaveRecord)
          else none).foldl applySaved M) c' i' =
        if c = c' ∧ i' ∈ L ∧ 0 < arr i' then arr i' else KmerModel.getCount M c' i' := by
  induction L with
  | nil => intro M c' i'; simp
  | cons j L ih =>
    intro M c' i'
    by_cases hj : 0 < arr j
    · simp only [List.filterMap_cons, if_pos hj, List.foldl_cons]
      rw [ih]
      unfold applySaved
      rw [getCount_applyRecord, index?_base_from_index]
      by_cases hc : c = c' <;> by_cases hji : i' = j <;>
        simp_all [List.mem_cons, eq_comm]
    · simp only [List.filterMap_cons, if_neg hj, List.foldl_cons]
      rw [ih]
      by_cases hc : c = c' <;> by_cases hji : i' = j <;>
        simp_all [List.mem_cons, eq_comm]

/-- `getCount` through one entry's records, at arbitrary lookups. -/
theorem getCount_applyEntry (e : String × Counts) (M : KmerModel) (c' : String) (i' : Fin 4) :
    KmerModel.getCount (applyEntry M e) c' i' =
      if e.1 = c' ∧ 0 < e.2 i' then e.2 i' else KmerModel.getCount M c' i' := by
  unfold applyEntry entryRecords
  rw [getCount_entry_fold_aux]
  have hmem : i' ∈ fourIndices := by fin_cases i' <;> decide
  simp [hmem]

/-- Entries for other contexts never disturb a context's counts. -/
theorem getCount_entries_fold_other (es : List (String × Counts)) :
    ∀ (M : KmerModel) (c' : String) (i' : Fin 4), c' ∉ es.map Prod.fst →
      KmerModel.getCount (es.foldl applyEntry M) c' i' = KmerModel.getCount M c' i' := by
  induction es with
  | nil => intro M c' i' _; rfl
  | cons e es ih =>
    intro M c' i' hout
    rw [List.map_cons, List.mem_cons] at hout
    push_neg at hout
    rw [List.foldl_cons, ih _ _ _ hout.2, getCount_applyEntry]
    have : ¬(e.1 = c' ∧ 0 < e.2 i') := fun h => hout.1 h.1.symm
    rw [if_neg this]

/-- Folding `applyEntry` over a model with pairwise-distinct keys
reproduces each present context's counts (zero counts falling through
to the accumulator). -/
theorem getCount_entries_fold (es : List (String × Counts)) :
    ∀ (M : KmerModel) (c' : String) (i' : Fin 4), (es.map Prod.fst).Nodup →
      KmerModel.getCount (es.foldl applyEntry M) c' i' =
        (match KmerModel.lookupCtx es c' with
         | some arr => if 0 < arr i' then arr i' else KmerModel.getCount M c' i'
         | none => KmerModel.getCount M c' i') := by
  induction es with
  | nil => intro M c' i' _; rfl
  | cons e es ih =>
    intro M c' i' hnd
    obtain ⟨k, arr⟩ := e
    rw [List.map_cons, List.nodup_cons] at hnd
    rw [List.foldl_cons]
    by_cases hk : k = c'
    · subst hk
      rw [lookupCtx_cons, if_pos rfl]
      rw [getCount_entries_fold_other es _ _ _ hnd.1, getCount_applyEntry]
      simp
    · rw [lookupCtx_cons, if_neg hk, ih _ _ _ hnd.2]
      have hne : ¬((k, arr).1 = c' ∧ 0 < (k, arr).2 i') := fun h => hk h.1
      cases h : KmerModel.lookupCtx es c' with
      | none => rw [getCount_applyEntry, if_neg hne]
      | some arr2 =>
        dsimp only
        rw [getCount_applyEntry, if_neg hne]

/-- `predict` is a function of the context's counts as read through
`getCount` (an absent context behaving as all-zero). -/
theorem predict_eq_getCount (M : KmerModel) (ctx : String) :
    KmerModel.predict M ctx =
      KmerModel.base_from_index
        ((List.foldl (KmerModel.scanStep fun i => KmerModel.getCount M ctx i)
          (0, none) fourIndices).2) := by
  cases h : KmerModel.lookupCtx M ctx with
  | none =>
    unfold KmerModel.predict
    rw [h]
    dsimp only
    have hz : (fun i => KmerModel.getCount M ctx i) = zeroCounts := by
      funext i
      unfold KmerModel.getCount
      rw [h]
      rfl
    rw [hz, scan_all_zero zeroCounts fun _ => rfl]
    rfl
  | some arr =>
    unfold KmerModel.predict
    rw [h]
    dsimp only
    have ha : (fun i => KmerModel.getCount M ctx i) = arr := by
      funext i
      unfold KmerModel.getCount
      rw [h]
    rw [ha]


/-- Loading the file `save` wrote (into a fresh model) applies exactly
the saved entries, provided every context is non-empty and free of
whitespace. -/
theorem loadChars_saveChars (m : KmerModel)
    (hctx : ∀ p ∈ m, p.1.data ≠ [] ∧ ∀ c ∈ p.1.data, isStreamWs c = false) :
    loadChars (KmerModel.saveChars m) = m.foldl applyEntry [] := by
  have hrecs : ∀ r ∈ KmerModel.saveRecords m, r.ctx.data ≠ [] ∧
      (∀ c ∈ r.ctx.data, isStreamWs c = false) ∧ isStreamWs r.base = false := by
    intro r hr
    obtain ⟨ctx, arr, i, hmem, hpos, rfl⟩ := mem_saveRecords m r hr
    obtain ⟨h1, h2⟩ := hctx (ctx, arr) hmem
    exact ⟨h1, h2, base_from_index_not_ws i⟩
  have hlen : (([] : List Char) ++ ((KmerModel.saveRecords m).map recordChars).flatten).length <
      (KmerModel.saveChars m).length + 1 := by
    simp [KmerModel.saveChars]
  have hload := loadLoop_records (KmerModel.saveRecords m) [] []
    ((KmerModel.saveChars m).length + 1) (by simp) hrecs hlen
  unfold loadChars
  have hshape : KmerModel.saveChars m =
      ([] : List Char) ++ ((KmerModel.saveRecords m).map recordChars).flatten := by
    simp [KmerModel.saveChars]
  rw [hshape] at hload
  rw [hshape, hload]
  unfold KmerModel.saveRecords
  rw [List.foldl_flatten, List.foldl_map]
  rfl

/-- C5 (amended): `save` followed by `load` into a fresh model
reproduces the original `predict` on every context — hence on every
context present in the original model — provided every context string in
the table is non-empty and contains no whitespace (true of every context
the pipeline creates; `(m.map Prod.fst).Nodup` is the representation
invariant of the `unordered_map`, whose keys are unique).  Without the
whitespace proviso the round trip fails: see
`save_load_roundtrip_spaced_ctx`. -/
theorem save_load_roundtrip (m : KmerModel)
    (hnd : (m.map Prod.fst).Nodup)
    (hctx : ∀ p ∈ m, p.1.data ≠ [] ∧ ∀ c ∈ p.1.data, isStreamWs c = false) :
    ∀ ctx, KmerModel.predict (loadChars (KmerModel.saveChars m)) ctx =
      KmerModel.predict m ctx := by
  intro ctx
  rw [loadChars_saveChars m hctx]
  rw [predict_eq_getCount, predict_eq_getCount]
  have hg : (fun i => KmerModel.getCount (m.foldl applyEntry []) ctx i) =
      (fun i => KmerModel.getCount m ctx i) := by
    funext i
    rw [getCount_entries_fold m [] ctx i hnd]
    cases h : KmerModel.lookupCtx m ctx with
    | none =>
      dsimp only
      have hm : KmerModel.getCount m ctx i = 0 := by simp [KmerModel.getCount, h]
      rw [hm]
      rfl
    | some arr =>
      dsimp only
      have hm : KmerModel.getCount m ctx i = arr i := by simp [KmerModel.getCount, h]
      have h0 : KmerModel.getCount ([] : KmerModel) ctx i = 0 := rfl
      rw [hm, h0]
      by_cases hpos : 0 < arr i
      · rw [if_pos hpos]
      · rw [if_neg hpos]
        omega
  rw [hg]

/-- Witness for `save_load_roundtrip` at the model `AA ↦ (C: 1, G: 2)`. -/
theorem save_load_roundtrip_witness :
    KmerModel.predict (loadChars (KmerModel.saveChars plainModel)) "AA" =
      KmerModel.predict plainModel "AA" :=
  save_load_roundtrip plainModel (by decide) (by decide) "AA"

/-- C5 (counterexample to the claim as stated): a model state whose
context `"A B"` contains a space — reachable through the public
`update`, which accepts any key string — breaks the round trip: `save`
writes the line `A B A 1`, whose whitespace-separated reading by `load`
takes `"A"` as the context and `'B'` as the base, fails to parse a
count, and loads nothing, so the reloaded model predicts `'N'` where the
original predicted `'A'`. -/
theorem save_load_roundtrip_spaced_ctx :
    (KmerModel.lookupCtx spacedModel "A B").isSome = true ∧
      KmerModel.predict spacedModel "A B" = 'A' ∧
      KmerModel.predict (loadChars (KmerModel.saveChars spacedModel)) "A B" = 'N' := by
  refine ⟨by decide, by decide, by decide⟩
